import Mathlib

/-!
# Verification of `bytes-quilt` (`BytesQuilt`, `src/lib.rs`)

A shallow embedding of the `bytes-quilt` Rust crate: a byte buffer that
tracks the locations of random-access writes.  The embedding follows
`src/src/lib.rs` (the crate root, type `BytesQuilt`); `src/lib.rs` is an
older copy of the same code under the name `OutOfOrderBytes` with
identical logic.

Modelling conventions:

* `bytes::BytesMut` is modelled by `Buf`: a list of bytes (`data`)
  together with its reserved `cap`acity.  The crate relies on
  `BytesMut::split_off` / `split` / `put` / `unsplit`:
  - `split_off at` keeps `[0, at)` (capacity exactly `at`) and returns the
    back part with the remaining capacity; it asserts `at ≤ capacity` and
    panics otherwise;
  - `split` removes all written bytes into a fresh buffer of capacity
    equal to that length, leaving an empty buffer with the rest of the
    capacity;
  - `put` appends, reserving capacity when needed.  `reserve` promises
    capacity of "at least" the needed amount; we model the exact lower
    bound `max cap (len + additional)`.  No theorem below depends on the
    amount by which the real allocator over-reserves.
* `usize` is modelled by `Nat`.  The one place the code can underflow
  (`index - 1` with `index = 0`) panics both in debug builds (overflow
  check) and in release builds (wrap followed by an out-of-bounds index),
  so it is modelled as a panic.
* Panics coming from `BytesMut` assertions or indexing are surfaced as
  the `PutOutcome.panic` constructor; `debug_assert!` compiles to a no-op
  in release builds and is modelled as a no-op.
* `slice::binary_search_by_key` is modelled by a lower-bound scan, which
  realises the documented contract of binary search on slices sorted by
  the key (the only inputs on which the contract pins down the result).
-/

/-- A byte buffer with explicit reserved capacity, modelling `bytes::BytesMut`. -/
structure Buf where
  data : List Nat
  cap : Nat
deriving Repr, DecidableEq

namespace Buf

/-- `BytesMut::len`. -/
def len (b : Buf) : Nat := b.data.length

/-- `BytesMut::put` (via `BufMut`): append bytes, reserving capacity when needed. -/
def put (b : Buf) (src : List Nat) : Buf :=
  { data := b.data ++ src, cap := max b.cap (b.data.length + src.length) }

/-- `BytesMut::split_off at`: keep `[0, at)` with capacity `at`, return the back
part carrying the rest of the capacity.  Panics (`none`) if `at > cap`. -/
def split_off (b : Buf) (i : Nat) : Option (Buf × Buf) :=
  if i ≤ b.cap then
    some ({ data := b.data.take i, cap := i }, { data := b.data.drop i, cap := b.cap - i })
  else
    none

/-- `BytesMut::split`: remove all written bytes into a fresh buffer (capacity =
length), leaving an empty buffer with the remaining capacity.
Returns `(remaining self, removed bytes)`. -/
def split_all (b : Buf) : Buf × Buf :=
  ({ data := [], cap := b.cap - b.data.length }, { data := b.data, cap := b.data.length })

/-- Well-formedness of a buffer: the written length never exceeds capacity. -/
def wfb (b : Buf) : Bool := b.data.length ≤ b.cap

end Buf

/-- The `Status` enum of a ledger segment. -/
inductive Status where
  | missing
  | received
deriving Repr, DecidableEq

/-- A ledger `Segment`: status, absolute start offset, and its buffer, whose
capacity is the segment's reserved length. -/
structure Segment where
  status : Status
  offset : Nat
  buffer : Buf
deriving Repr, DecidableEq

/-- Caller-facing snapshot of a `Missing` segment. -/
structure MissingSegment where
  offset : Nat
  length : Nat
deriving Repr, DecidableEq

/-- The error type for writing to the `BytesQuilt`. -/
inductive Error where
  | notEnoughSpace
  | wouldOverwrite
deriving Repr, DecidableEq

/-- The quilt itself: frontier (`tail_offset`), ordered ledger (`segments`),
and the live tail buffer. -/
structure BytesQuilt where
  tail_offset : Nat
  segments : List Segment
  buffer_tail : Buf
deriving Repr, DecidableEq

namespace Segment

/-- `Segment::missing`. -/
def missing (offset : Nat) (buffer : Buf) : Segment :=
  { status := .missing, offset := offset, buffer := buffer }

/-- `Segment::received`. -/
def received (offset : Nat) (buffer : Buf) : Segment :=
  { status := .received, offset := offset, buffer := buffer }

/-- `Segment::is_missing`. -/
def is_missing (s : Segment) : Bool := s.status = Status.missing

/-- `Segment::missing_segment`: the reported length of a gap is the buffer's
*capacity*. -/
def missing_segment (s : Segment) : Option MissingSegment :=
  match s.status with
  | .missing => some { offset := s.offset, length := s.buffer.cap }
  | .received => none

/-- The end of a segment's reserved range. -/
def seg_end (s : Segment) : Nat := s.offset + s.buffer.cap

end Segment

/-- Result of `slice::binary_search_by_key`: `found i` is Rust's `Ok(i)`,
`notFound i` is `Err(i)` (the insertion point). -/
inductive SearchResult where
  | found (index : Nat)
  | notFound (index : Nat)
deriving Repr, DecidableEq

/-- Models `self.segments.binary_search_by_key(&offset, |segment| segment.offset)`
as a lower-bound scan; on a ledger sorted by `offset` this is exactly the
documented behaviour of slice binary search. -/
def binary_search_by_offset : List Segment → Nat → SearchResult
  | [], _ => .notFound 0
  | s :: rest, key =>
    if s.offset = key then .found 0
    else if key < s.offset then .notFound 0
    else
      match binary_search_by_offset rest key with
      | .found i => .found (i + 1)
      | .notFound i => .notFound (i + 1)

/-- `Vec::insert(index, a)`: insert before position `index`. -/
def insert_at (l : List Segment) (i : Nat) (a : Segment) : List Segment :=
  l.take i ++ a :: l.drop i

namespace BytesQuilt

/-- `BytesQuilt::new` (also `Default::default`): `BytesMut::new` has capacity 0. -/
def new : BytesQuilt :=
  { tail_offset := 0, segments := [], buffer_tail := { data := [], cap := 0 } }

/-- `BytesQuilt::with_capacity`. -/
def with_capacity (capacity : Nat) : BytesQuilt :=
  { tail_offset := 0, segments := [], buffer_tail := { data := [], cap := capacity } }

/-- `BytesQuilt::write_offset_at_index`: the fill sub-protocol on
`segments[index]`.  Returns `none` on a panic (index out of bounds: impossible
at its call sites inside `put_at`), `some (.error e)` when the fill is
rejected (in which case the segment list is untouched), and
`some (.ok segs)` with the updated ledger otherwise.  The three comparison
branches mirror `segment.buffer.capacity().cmp(&bytes.len())`. -/
def write_offset_at_index (segs : List Segment) (index offset : Nat) (bytes : List Nat) :
    Option (Except Error (List Segment)) :=
  match segs[index]? with
  | none => none
  | some segment =>
    if segment.status = .received then
      some (.error .wouldOverwrite)
    else if segment.buffer.cap < bytes.length then
      -- Ordering::Less
      some (.error .notEnoughSpace)
    else if segment.buffer.cap = bytes.length then
      -- Ordering::Equal
      some (.ok (segs.set index { segment with status := .received, buffer := segment.buffer.put bytes }))
    else
      -- Ordering::Greater
      let buf : Buf := segment.buffer.put bytes
      let new_relative_offset := buf.data.length
      match buf.split_off new_relative_offset with
      | none => none
      | some (kept, remaining_segment) =>
        some (.ok (insert_at
          (segs.set index { segment with status := .received, buffer := kept })
          (index + 1)
          (Segment.missing (offset + new_relative_offset) remaining_segment)))

/-- The three possible outcomes of `put_at`: `Ok`, `Err` (carrying the state
after the failed call), or a panic. -/
inductive PutOutcome where
  | ok (ms : Option MissingSegment) (q : BytesQuilt)
  | err (e : Error) (q : BytesQuilt)
  | panic
deriving Repr, DecidableEq

/-- `BytesQuilt::put_at`: transfer bytes into the quilt at `offset`. -/
def put_at (q : BytesQuilt) (offset : Nat) (src : List Nat) : PutOutcome :=
  if q.tail_offset > offset then
    -- backfill: we should have a missing segment this offset can write into
    match binary_search_by_offset q.segments offset with
    | .found index =>
      match write_offset_at_index q.segments index offset src with
      | none => .panic
      | some (.error e) => .err e q
      | some (.ok segs) => .ok none { q with segments := segs }
    | .notFound index =>
      match index, q.segments[index - 1]? with
      | 0, _ => .panic
      | _ + 1, none => .panic
      | _ + 1, some segment =>
        if segment.offset ≤ offset then
          match segment.buffer.split_off (offset - segment.offset) with
          | none => .panic
          | some (kept, to_write_buffer) =>
            let segs :=
              insert_at (q.segments.set (index - 1) { segment with buffer := kept })
                index (Segment.missing offset to_write_buffer)
            match write_offset_at_index segs index offset src with
            | none => .panic
            | some (.error e) => .err e { q with segments := segs }
            | some (.ok segs') => .ok none { q with segments := segs' }
        else
          -- `offset - segment.offset` underflows in Rust; panic either way
          .panic
  else if q.tail_offset + q.buffer_tail.len < offset then
    -- a write beyond the live edge: freeze the tail, record the gap
    let frozen : BytesQuilt :=
      if q.buffer_tail.data.isEmpty then q
      else
        { tail_offset := q.tail_offset + q.buffer_tail.len,
          segments := q.segments ++ [Segment.received q.tail_offset (q.buffer_tail.split_all).2],
          buffer_tail := (q.buffer_tail.split_all).1 }
    match frozen.buffer_tail.split_off (offset - frozen.tail_offset) with
    | none => .panic
    | some (head_bytes, tail_bytes) =>
      let segment := Segment.missing frozen.tail_offset head_bytes
      .ok segment.missing_segment
        { tail_offset := offset,
          segments := frozen.segments ++ [segment],
          buffer_tail := tail_bytes.put src }
  else if q.tail_offset = offset ∧ ¬q.buffer_tail.data.isEmpty then
    -- supposed to write at beginning of tail, but tail is not empty!
    .err .wouldOverwrite q
  else
    .ok none { q with buffer_tail := q.buffer_tail.put src }

/-- `BytesQuilt::missing_segments`. -/
def missing_segments (q : BytesQuilt) : List MissingSegment :=
  q.segments.filterMap Segment.missing_segment

/-- `BytesQuilt::into_inner`: reassemble the inner buffer.  `unsplit`
concatenates the written bytes; the `debug_assert!`s vanish in release
builds. -/
def into_inner (q : BytesQuilt) : List Nat :=
  (q.segments.map (fun s => s.buffer.data)).flatten ++ q.buffer_tail.data

end BytesQuilt

namespace MissingSegment

/-- `MissingSegment::offsets_for`: absolute offsets of the `frame_size`-byte
frames that fit inside the gap. -/
def offsets_for (s : MissingSegment) (frame_size : Nat) : List Nat :=
  let number_of_frames := s.length / frame_size
  (List.range number_of_frames).map (fun index => index * frame_size + s.offset)

end MissingSegment

/-! ## Invariants and reachability -/

namespace BytesQuilt

/-- Projection: the `MissingSegment` reported by a successful `put_at`. -/
def PutOutcome.reported : PutOutcome → Option MissingSegment
  | .ok ms _ => ms
  | _ => none

/-- Projection: the quilt state after a non-panicking `put_at` (failed calls
keep their post-call state). -/
def PutOutcome.state : PutOutcome → Option BytesQuilt
  | .ok _ q => some q
  | .err _ q => some q
  | .panic => none

end BytesQuilt

/-- Per-segment well-formedness: a `Missing` segment holds no written bytes; a
`Received` segment is written to its full capacity. -/
def Segment.wfb : Segment → Bool
  | ⟨.missing, _, b⟩ => b.data.isEmpty
  | ⟨.received, _, b⟩ => b.data.length = b.cap

/-- `coversb lo segs hi`: the segments tile `[lo, hi)` exactly, in order:
each starts where its predecessor ends, the first starts at `lo`, the last
ends at `hi`. -/
def coversb : Nat → List Segment → Nat → Bool
  | lo, [], hi => lo = hi
  | lo, s :: rest, hi => (decide (s.offset = lo)) && coversb (lo + s.buffer.cap) rest hi

/-- The pairwise-contiguity part of the spec's ledger invariant. -/
def contiguousb : List Segment → Bool
  | [] => true
  | [_] => true
  | a :: b :: rest => (decide (a.seg_end = b.offset)) && contiguousb (b :: rest)

/-- The spec's ledger invariant: consecutive entries are contiguous
(`offset + capacity` of one equals the `offset` of the next) and, when the
ledger is non-empty, its first entry has offset 0. -/
def ledger_invariant (segs : List Segment) : Bool :=
  (match segs with
   | [] => true
   | s :: _ => decide (s.offset = 0)) && contiguousb segs

/-- Structural invariant of a quilt: the ledger tiles `[0, tail_offset)`,
every segment is well-formed, and the tail buffer is well-formed. -/
def StrongInv (q : BytesQuilt) : Prop :=
  coversb 0 q.segments q.tail_offset = true ∧
  (∀ s ∈ q.segments, s.wfb = true) ∧
  q.buffer_tail.wfb = true

/-- A write is *good* when it does not start strictly inside the reserved
range of a `Received` ledger entry. -/
def good_write (q : BytesQuilt) (offset : Nat) : Prop :=
  ∀ s ∈ q.segments, s.status = .received → ¬(s.offset < offset ∧ offset < s.seg_end)

/-- Quilt states reachable from a freshly constructed quilt by `put_at` calls
(keeping the states of failed calls) none of which writes strictly inside a
`Received` segment's reserved range. -/
inductive ReachableGood : BytesQuilt → Prop where
  | init (capacity : Nat) : ReachableGood (BytesQuilt.with_capacity capacity)
  | step_ok {q : BytesQuilt} {offset : Nat} {src : List Nat} {ms : Option MissingSegment}
      {q' : BytesQuilt} : ReachableGood q → good_write q offset →
      q.put_at offset src = .ok ms q' → ReachableGood q'
  | step_err {q : BytesQuilt} {offset : Nat} {src : List Nat} {e : Error} {q' : BytesQuilt} :
      ReachableGood q → good_write q offset →
      q.put_at offset src = .err e q' → ReachableGood q'

open BytesQuilt

/-! ## List and ledger helper lemmas -/

theorem insert_at_zero (l : List Segment) (a : Segment) : insert_at l 0 a = a :: l := rfl

theorem insert_at_cons_succ (x : Segment) (l : List Segment) (i : Nat) (a : Segment) :
    insert_at (x :: l) (i + 1) a = x :: insert_at l i a := rfl

theorem insert_at_get_self (l : List Segment) (i : Nat) (a : Segment) (h : i ≤ l.length) :
    (insert_at l i a)[i]? = some a := by
  induction l generalizing i with
  | nil =>
    have h0 : i = 0 := Nat.le_zero.mp h
    subst h0
    rfl
  | cons x xs ih =>
    cases i with
    | zero => rfl
    | succ j =>
      rw [insert_at_cons_succ, List.getElem?_cons_succ]
      exact ih j (Nat.succ_le_succ_iff.mp h)

theorem mem_insert_at {l : List Segment} {i : Nat} {a t : Segment}
    (h : t ∈ insert_at l i a) : t = a ∨ t ∈ l := by
  unfold insert_at at h
  rcases List.mem_append.mp h with h1 | h2
  · exact Or.inr (List.take_subset i l h1)
  · rcases List.mem_cons.mp h2 with h3 | h4
    · exact Or.inl h3
    · exact Or.inr (List.drop_subset i l h4)

theorem coversb_nil_iff (lo hi : Nat) : coversb lo [] hi = true ↔ lo = hi := by
  simp [coversb]

theorem coversb_cons_iff (lo hi : Nat) (s : Segment) (rest : List Segment) :
    coversb lo (s :: rest) hi = true ↔
      s.offset = lo ∧ coversb (lo + s.buffer.cap) rest hi = true := by
  simp [coversb]

theorem coversb_le {lo hi : Nat} {segs : List Segment} (h : coversb lo segs hi = true) :
    lo ≤ hi := by
  induction segs generalizing lo with
  | nil =>
    have := (coversb_nil_iff lo hi).mp h
    omega
  | cons s rest ih =>
    obtain ⟨-, h2⟩ := (coversb_cons_iff lo hi s rest).mp h
    have := ih h2
    omega

theorem coversb_get_bounds {lo hi : Nat} {segs : List Segment} (h : coversb lo segs hi = true)
    {i : Nat} {s : Segment} (hs : segs[i]? = some s) :
    lo ≤ s.offset ∧ s.seg_end ≤ hi := by
  induction segs generalizing lo i with
  | nil => simp at hs
  | cons x rest ih =>
    obtain ⟨hx, h2⟩ := (coversb_cons_iff lo hi x rest).mp h
    cases i with
    | zero =>
      rw [List.getElem?_cons_zero, Option.some.injEq] at hs
      subst hs
      have := coversb_le h2
      refine ⟨Nat.le_of_eq hx.symm, ?_⟩
      unfold Segment.seg_end
      omega
    | succ j =>
      rw [List.getElem?_cons_succ] at hs
      have := ih h2 hs
      omega

theorem coversb_get_succ {lo hi : Nat} {segs : List Segment} (h : coversb lo segs hi = true)
    {i : Nat} {a b : Segment} (ha : segs[i]? = some a) (hb : segs[i + 1]? = some b) :
    b.offset = a.seg_end := by
  induction segs generalizing lo i with
  | nil => simp at ha
  | cons x rest ih =>
    obtain ⟨hx, h2⟩ := (coversb_cons_iff lo hi x rest).mp h
    cases i with
    | zero =>
      rw [List.getElem?_cons_zero, Option.some.injEq] at ha
      subst ha
      rw [List.getElem?_cons_succ] at hb
      cases rest with
      | nil => simp at hb
      | cons y ys =>
        rw [List.getElem?_cons_zero, Option.some.injEq] at hb
        subst hb
        obtain ⟨hy, -⟩ := (coversb_cons_iff _ hi _ ys).mp h2
        unfold Segment.seg_end
        omega
    | succ j =>
      rw [List.getElem?_cons_succ] at ha
      rw [List.getElem?_cons_succ] at hb
      exact ih h2 ha hb

theorem coversb_get_last {lo hi : Nat} {segs : List Segment} (h : coversb lo segs hi = true)
    {i : Nat} {a : Segment} (ha : segs[i]? = some a) (hlast : segs[i + 1]? = none) :
    a.seg_end = hi := by
  induction segs generalizing lo i with
  | nil => simp at ha
  | cons x rest ih =>
    obtain ⟨hx, h2⟩ := (coversb_cons_iff lo hi x rest).mp h
    cases i with
    | zero =>
      rw [List.getElem?_cons_zero, Option.some.injEq] at ha
      subst ha
      rw [List.getElem?_cons_succ] at hlast
      cases rest with
      | nil =>
        have := (coversb_nil_iff _ hi).mp h2
        unfold Segment.seg_end
        omega
      | cons y ys => simp at hlast
    | succ j =>
      rw [List.getElem?_cons_succ] at ha
      rw [List.getElem?_cons_succ] at hlast
      exact ih h2 ha hlast

theorem coversb_set_same {lo hi : Nat} {segs : List Segment} (h : coversb lo segs hi = true)
    {i : Nat} {s : Segment} (hs : segs[i]? = some s) {v : Segment}
    (hoff : v.offset = s.offset) (hcap : v.buffer.cap = s.buffer.cap) :
    coversb lo (segs.set i v) hi = true := by
  induction segs generalizing lo i with
  | nil => simp at hs
  | cons x rest ih =>
    obtain ⟨hx, h2⟩ := (coversb_cons_iff lo hi x rest).mp h
    cases i with
    | zero =>
      rw [List.getElem?_cons_zero, Option.some.injEq] at hs
      subst hs
      show coversb lo (v :: rest) hi = true
      refine (coversb_cons_iff lo hi v rest).mpr ⟨by omega, ?_⟩
      rw [hcap]
      exact h2
    | succ j =>
      rw [List.getElem?_cons_succ] at hs
      show coversb lo (x :: rest.set j v) hi = true
      exact (coversb_cons_iff lo hi x _).mpr ⟨hx, ih h2 hs⟩

theorem coversb_split_insert {lo hi : Nat} {segs : List Segment} (h : coversb lo segs hi = true)
    {i : Nat} {s : Segment} (hs : segs[i]? = some s) {a b : Segment}
    (hoff : a.offset = s.offset) (hb : b.offset = a.offset + a.buffer.cap)
    (hsum : a.buffer.cap + b.buffer.cap = s.buffer.cap) :
    coversb lo (insert_at (segs.set i a) (i + 1) b) hi = true := by
  induction segs generalizing lo i with
  | nil => simp at hs
  | cons x rest ih =>
    obtain ⟨hx, h2⟩ := (coversb_cons_iff lo hi x rest).mp h
    cases i with
    | zero =>
      rw [List.getElem?_cons_zero, Option.some.injEq] at hs
      subst hs
      show coversb lo (a :: b :: rest) hi = true
      refine (coversb_cons_iff lo hi a _).mpr ⟨by omega, ?_⟩
      refine (coversb_cons_iff _ hi b rest).mpr ⟨by omega, ?_⟩
      have e : lo + a.buffer.cap + b.buffer.cap = lo + x.buffer.cap := by omega
      rw [e]
      exact h2
    | succ j =>
      rw [List.getElem?_cons_succ] at hs
      show coversb lo (x :: insert_at (rest.set j a) (j + 1) b) hi = true
      exact (coversb_cons_iff lo hi x _).mpr ⟨hx, ih h2 hs⟩

theorem coversb_snoc {lo hi : Nat} {segs : List Segment} (h : coversb lo segs hi = true)
    {s : Segment} (hoff : s.offset = hi) :
    coversb lo (segs ++ [s]) s.seg_end = true := by
  induction segs generalizing lo with
  | nil =>
    have h0 := (coversb_nil_iff lo hi).mp h
    subst h0
    refine (coversb_cons_iff lo _ s []).mpr ⟨hoff.symm ▸ rfl, ?_⟩
    rw [coversb_nil_iff]
    unfold Segment.seg_end
    omega
  | cons x rest ih =>
    obtain ⟨hx, h2⟩ := (coversb_cons_iff lo hi x rest).mp h
    exact (coversb_cons_iff lo _ x _).mpr ⟨hx, ih h2⟩

/-! ## Search characterisation lemmas -/

theorem search_found_spec {segs : List Segment} {key i : Nat}
    (h : binary_search_by_offset segs key = .found i) :
    ∃ s, segs[i]? = some s ∧ s.offset = key := by
  induction segs generalizing i with
  | nil => simp [binary_search_by_offset] at h
  | cons x rest ih =>
    unfold binary_search_by_offset at h
    split at h
    next heq =>
      cases h
      exact ⟨x, List.getElem?_cons_zero, heq⟩
    next hne =>
      split at h
      next => cases h
      next hge =>
        split at h
        next j hrec =>
          cases h
          obtain ⟨s, hs, hk⟩ := ih hrec
          exact ⟨s, by rw [List.getElem?_cons_succ]; exact hs, hk⟩
        next j hrec => cases h

theorem search_notFound_spec {segs : List Segment} {key i : Nat}
    (h : binary_search_by_offset segs key = .notFound i) :
    i ≤ segs.length ∧ (∀ j t, j < i → segs[j]? = some t → t.offset < key) ∧
      (∀ t, segs[i]? = some t → key < t.offset) := by
  induction segs generalizing i with
  | nil =>
    unfold binary_search_by_offset at h
    cases h
    refine ⟨Nat.le_refl 0, ?_, ?_⟩
    · intro j t hj
      omega
    · intro t ht
      simp at ht
  | cons x rest ih =>
    unfold binary_search_by_offset at h
    split at h
    next => cases h
    next hne =>
      split at h
      next hlt =>
        cases h
        refine ⟨Nat.zero_le _, ?_, ?_⟩
        · intro j t hj
          omega
        · intro t ht
          rw [List.getElem?_cons_zero, Option.some.injEq] at ht
          subst ht
          exact hlt
      next hnlt =>
        have hxlt : x.offset < key := by omega
        split at h
        next j hrec => cases h
        next j hrec =>
          cases h
          obtain ⟨h1, h2, h3⟩ := ih hrec
          refine ⟨Nat.succ_le_succ h1, ?_, ?_⟩
          · intro jj t hjj ht
            cases jj with
            | zero =>
              rw [List.getElem?_cons_zero, Option.some.injEq] at ht
              subst ht
              exact hxlt
            | succ k =>
              rw [List.getElem?_cons_succ] at ht
              exact h2 k t (by omega) ht
          · intro t ht
            rw [List.getElem?_cons_succ] at ht
            exact h3 t ht

theorem search_found_of {segs : List Segment} {key i : Nat} {s : Segment}
    (hs : segs[i]? = some s) (heq : s.offset = key)
    (hprev : ∀ j t, j < i → segs[j]? = some t → t.offset < key) :
    binary_search_by_offset segs key = .found i := by
  induction segs generalizing i with
  | nil => simp at hs
  | cons x rest ih =>
    cases i with
    | zero =>
      rw [List.getElem?_cons_zero, Option.some.injEq] at hs
      subst hs
      unfold binary_search_by_offset
      rw [if_pos heq]
    | succ j =>
      have hx : x.offset < key := hprev 0 x (Nat.succ_pos j) List.getElem?_cons_zero
      rw [List.getElem?_cons_succ] at hs
      unfold binary_search_by_offset
      rw [if_neg (by omega), if_neg (by omega)]
      have hrec := ih hs (fun k t hk ht =>
        hprev (k + 1) t (by omega) (by rw [List.getElem?_cons_succ]; exact ht))
      rw [hrec]

theorem search_notFound_of {segs : List Segment} {key i : Nat}
    (hlen : i ≤ segs.length)
    (hprev : ∀ j t, j < i → segs[j]? = some t → t.offset < key)
    (hnext : ∀ t, segs[i]? = some t → key < t.offset) :
    binary_search_by_offset segs key = .notFound i := by
  induction segs generalizing i with
  | nil =>
    have h0 : i = 0 := Nat.le_zero.mp hlen
    subst h0
    rfl
  | cons x rest ih =>
    cases i with
    | zero =>
      have hx : key < x.offset := hnext x List.getElem?_cons_zero
      unfold binary_search_by_offset
      rw [if_neg (by omega), if_pos hx]
    | succ j =>
      have hx : x.offset < key := hprev 0 x (Nat.succ_pos j) List.getElem?_cons_zero
      unfold binary_search_by_offset
      rw [if_neg (by omega), if_neg (by omega)]
      have hrec := ih (by simpa using hlen)
        (fun k t hk ht => hprev (k + 1) t (by omega) (by rw [List.getElem?_cons_succ]; exact ht))
        (fun t ht => hnext t (by rw [List.getElem?_cons_succ]; exact ht))
      rw [hrec]

/-! ## Characterisation of the fill sub-protocol -/

theorem seg_mem_of_getElem? {l : List Segment} {i : Nat} {s : Segment}
    (h : l[i]? = some s) : s ∈ l := by
  obtain ⟨hi, rfl⟩ := List.getElem?_eq_some.mp h
  exact List.getElem_mem hi

theorem write_received {segs : List Segment} {index offset : Nat} {src : List Nat} {s : Segment}
    (hs : segs[index]? = some s) (hrec : s.status = .received) :
    write_offset_at_index segs index offset src = some (.error .wouldOverwrite) := by
  unfold write_offset_at_index
  rw [hs]
  simp [hrec]

theorem write_missing {segs : List Segment} {index offset : Nat} {src : List Nat} {s : Segment}
    (hs : segs[index]? = some s) (hms : s.status = .missing) (hdata : s.buffer.data = []) :
    write_offset_at_index segs index offset src =
      if s.buffer.cap < src.length then some (.error .notEnoughSpace)
      else if s.buffer.cap = src.length then
        some (.ok (segs.set index { s with status := .received, buffer := ⟨src, s.buffer.cap⟩ }))
      else
        some (.ok (insert_at
          (segs.set index { s with status := .received, buffer := ⟨src, src.length⟩ })
          (index + 1)
          (Segment.missing (offset + src.length) ⟨[], s.buffer.cap - src.length⟩))) := by
  unfold write_offset_at_index
  rw [hs]
  have hnr : ¬ s.status = .received := by
    rw [hms]
    simp
  simp only []
  rw [if_neg hnr]
  by_cases h1 : s.buffer.cap < src.length
  · rw [if_pos h1, if_pos h1]
  · rw [if_neg h1, if_neg h1]
    by_cases h2 : s.buffer.cap = src.length
    · rw [if_pos h2, if_pos h2]
      have hput : s.buffer.put src = ⟨src, s.buffer.cap⟩ := by
        simp [Buf.put, hdata, h2]
      rw [hput]
    · rw [if_neg h2, if_neg h2]
      have hle : src.length ≤ s.buffer.cap := by omega
      have hput : s.buffer.put src = ⟨src, s.buffer.cap⟩ := by
        simp [Buf.put, hdata, Nat.max_eq_left hle]
      simp only [hput]
      have hsplit : Buf.split_off ⟨src, s.buffer.cap⟩ src.length =
          some (⟨src, src.length⟩, ⟨[], s.buffer.cap - src.length⟩) := by
        simp [Buf.split_off, hle]
      simp only [hsplit]

theorem missing_data_empty {s : Segment} (hw : s.wfb = true) (hms : s.status = .missing) :
    s.buffer.data = [] := by
  obtain ⟨st, off, b⟩ := s
  cases st
  · simpa [Segment.wfb, List.isEmpty_iff] using hw
  · simp at hms

theorem received_data_full {s : Segment} (hw : s.wfb = true) (hrec : s.status = .received) :
    s.buffer.data.length = s.buffer.cap := by
  obtain ⟨st, off, b⟩ := s
  cases st
  · simp at hrec
  · simpa [Segment.wfb] using hw

theorem write_missing_ok_inv {lo hi : Nat} {segs : List Segment} {index offset : Nat}
    {src : List Nat} {s : Segment} {r : List Segment}
    (hc : coversb lo segs hi = true) (hw : ∀ t ∈ segs, t.wfb = true)
    (hs : segs[index]? = some s) (hms : s.status = .missing) (hdata : s.buffer.data = [])
    (hoff : s.offset = offset)
    (h : write_offset_at_index segs index offset src = some (.ok r)) :
    coversb lo r hi = true ∧ (∀ t ∈ r, t.wfb = true) := by
  rw [write_missing hs hms hdata] at h
  by_cases h1 : s.buffer.cap < src.length
  · rw [if_pos h1] at h
    simp at h
  · rw [if_neg h1] at h
    by_cases h2 : s.buffer.cap = src.length
    · rw [if_pos h2] at h
      simp only [Option.some.injEq, Except.ok.injEq] at h
      subst h
      refine ⟨coversb_set_same hc hs rfl rfl, ?_⟩
      intro t htm
      rcases List.mem_or_eq_of_mem_set htm with hmem | heq
      · exact hw t hmem
      · subst heq
        simp [Segment.wfb, h2]
    · rw [if_neg h2] at h
      simp only [Option.some.injEq, Except.ok.injEq] at h
      subst h
      have hle : src.length ≤ s.buffer.cap := by omega
      refine ⟨coversb_split_insert hc hs rfl ?_ ?_, ?_⟩
      · simp [Segment.missing, hoff]
      · simp [Segment.missing]
        omega
      · intro t htm
        rcases mem_insert_at htm with heq | hmem
        · subst heq
          simp [Segment.wfb, Segment.missing]
        · rcases List.mem_or_eq_of_mem_set hmem with hmem2 | heq2
          · exact hw t hmem2
          · subst heq2
            simp [Segment.wfb]

theorem put_wfb (b : Buf) (src : List Nat) : (b.put src).wfb = true := by
  simp only [Buf.put, Buf.wfb, List.length_append, decide_eq_true_eq]
  exact Nat.le_max_right _ _

set_option maxHeartbeats 1000000 in
/-- `put_at` preserves the structural invariant, provided the write does not
start strictly inside a `Received` segment's reserved range. -/
theorem put_at_preserves_inv {q : BytesQuilt} {offset : Nat} {src : List Nat} {q' : BytesQuilt}
    (hInv : StrongInv q) (hg : good_write q offset)
    (h : (q.put_at offset src).state = some q') : StrongInv q' := by
  obtain ⟨hc, hw, ht⟩ := hInv
  unfold BytesQuilt.put_at at h
  split at h
  · -- backfill: q.tail_offset > offset
    rename_i hb
    split at h
    · -- binary search found an exact match
      rename_i sr i hsearch
      split at h
      · simp [PutOutcome.state] at h
      · -- fill rejected: state unchanged
        rename_i e hwr
        simp only [PutOutcome.state, Option.some.injEq] at h
        subst h
        exact ⟨hc, hw, ht⟩
      · rename_i segs hwr
        simp only [PutOutcome.state, Option.some.injEq] at h
        subst h
        obtain ⟨s, hs, hoff⟩ := search_found_spec hsearch
        rcases hstat : s.status with _ | _
        · have hdata := missing_data_empty (hw s (seg_mem_of_getElem? hs)) hstat
          obtain ⟨hc', hw'⟩ := write_missing_ok_inv hc hw hs hstat hdata hoff hwr
          exact ⟨hc', hw', ht⟩
        · rw [write_received hs hstat] at hwr
          simp at hwr
    · -- binary search returned an insertion point
      rename_i sr i hnf
      split at h
      · simp [PutOutcome.state] at h
      · simp [PutOutcome.state] at h
      · rename_i n prior hget
        simp only [Nat.succ_sub_one] at hget
        split at h
        · rename_i hle
          split at h
          · simp [PutOutcome.state] at h
          · rename_i kept remaining hsplit
            -- facts about the located segment
            obtain ⟨hlen2, hprevs, hnextoff⟩ := search_notFound_spec hnf
            have hpo : prior.offset < offset := hprevs n prior (Nat.lt_succ_self n) hget
            have hinside : offset < prior.seg_end := by
              rcases hnx : q.segments[n + 1]? with _ | u
              · have := coversb_get_last hc hget hnx
                omega
              · have h1 := hnextoff u hnx
                have h2 := coversb_get_succ hc hget hnx
                omega
            have hmiss : prior.status = .missing := by
              rcases hstat : prior.status with _ | _
              · rfl
              · exact absurd ⟨hpo, hinside⟩ (hg prior (seg_mem_of_getElem? hget) hstat)
            have hdata := missing_data_empty (hw prior (seg_mem_of_getElem? hget)) hmiss
            -- decompose the split
            unfold Buf.split_off at hsplit
            rw [if_pos (by unfold Segment.seg_end at hinside; omega)] at hsplit
            simp only [Option.some.injEq, Prod.mk.injEq, hdata, List.take_nil, List.drop_nil]
              at hsplit
            obtain ⟨hkept, hrem⟩ := hsplit
            -- the ledger after the pre-split
            have hc1 : coversb 0
                (insert_at (q.segments.set n { prior with buffer := kept }) (n + 1)
                  (Segment.missing offset remaining)) q.tail_offset = true := by
              refine coversb_split_insert hc hget rfl ?_ ?_
              · rw [← hkept, Segment.missing]
                unfold Segment.seg_end at hinside
                simp
                omega
              · rw [← hkept, ← hrem, Segment.missing]
                unfold Segment.seg_end at hinside
                simp
                omega
            have hw1 : ∀ t ∈ insert_at (q.segments.set n { prior with buffer := kept }) (n + 1)
                (Segment.missing offset remaining), t.wfb = true := by
              intro t htm
              rcases mem_insert_at htm with heq | hmem
              · subst heq
                simp [Segment.wfb, Segment.missing, ← hrem]
              · rcases List.mem_or_eq_of_mem_set hmem with hmem2 | heq2
                · exact hw t hmem2
                · subst heq2
                  rw [hmiss]
                  simp [Segment.wfb, ← hkept]
            have hn1 : (insert_at (q.segments.set n { prior with buffer := kept }) (n + 1)
                (Segment.missing offset remaining))[n + 1]? = some (Segment.missing offset remaining) := by
              refine insert_at_get_self _ _ _ ?_
              rw [List.length_set]
              exact (List.getElem?_eq_some.mp hget).1
            simp only [Nat.succ_eq_add_one] at h
            split at h
            · simp [PutOutcome.state] at h
            · rename_i e hwr2
              simp only [PutOutcome.state, Option.some.injEq] at h
              subst h
              exact ⟨hc1, hw1, ht⟩
            · rename_i segs2 hwr2
              simp only [PutOutcome.state, Option.some.injEq] at h
              subst h
              obtain ⟨hc2, hw2⟩ := write_missing_ok_inv hc1 hw1 hn1 rfl (by rw [← hrem]; rfl) rfl hwr2
              exact ⟨hc2, hw2, ht⟩
        · simp [PutOutcome.state] at h
  · -- not a backfill
    rename_i hb
    split at h
    · -- gap ahead of the live edge
      rename_i hb2
      split at h
      · -- tail empty: no freeze
        rename_i hemp
        have hdata : q.buffer_tail.data = [] := List.isEmpty_iff.mp hemp
        simp only [] at h
        split at h
        · simp [PutOutcome.state] at h
        · rename_i hd tl hsplit
          simp only [PutOutcome.state, Option.some.injEq] at h
          subst h
          unfold Buf.split_off at hsplit
          have hlen0 : q.buffer_tail.len = 0 := by simp [Buf.len, hdata]
          split at hsplit
          · rename_i hle
            simp only [Option.some.injEq, Prod.mk.injEq, hdata, List.take_nil, List.drop_nil]
              at hsplit
            obtain ⟨hhd, htl⟩ := hsplit
            refine ⟨?_, ?_, ?_⟩
            · have hsn := coversb_snoc hc
                (s := Segment.missing q.tail_offset hd) (by simp [Segment.missing])
              have he : (Segment.missing q.tail_offset hd).seg_end = offset := by
                simp [Segment.missing, Segment.seg_end, ← hhd]
                omega
              rw [he] at hsn
              exact hsn
            · intro t htm
              rcases List.mem_append.mp htm with hmem | hmem
              · exact hw t hmem
              · rw [List.mem_singleton.mp hmem]
                simp [Segment.wfb, Segment.missing, ← hhd]
            · exact put_wfb _ _
          · simp at hsplit
      · -- freeze the tail, then record the gap
        rename_i hemp
        simp only [] at h
        split at h
        · simp [PutOutcome.state] at h
        · rename_i hd tl hsplit
          simp only [PutOutcome.state, Option.some.injEq] at h
          subst h
          unfold Buf.split_off at hsplit
          split at hsplit
          · rename_i hle
            simp only [Buf.split_all, Option.some.injEq, Prod.mk.injEq, List.take_nil,
              List.drop_nil] at hsplit
            obtain ⟨hhd, htl⟩ := hsplit
            have hrecv := coversb_snoc hc
              (s := Segment.received q.tail_offset (q.buffer_tail.split_all).2)
              (by simp [Segment.received])
            have he1 : (Segment.received q.tail_offset (q.buffer_tail.split_all).2).seg_end =
                q.tail_offset + q.buffer_tail.len := by
              simp [Segment.received, Segment.seg_end, Buf.split_all, Buf.len]
            rw [he1] at hrecv
            refine ⟨?_, ?_, ?_⟩
            · have hsn := coversb_snoc hrecv
                (s := Segment.missing (q.tail_offset + q.buffer_tail.len) hd)
                (by simp [Segment.missing])
              have he2 : (Segment.missing (q.tail_offset + q.buffer_tail.len) hd).seg_end =
                  offset := by
                simp [Segment.missing, Segment.seg_end, ← hhd]
                omega
              rw [he2] at hsn
              simpa [List.append_assoc] using hsn
            · intro t htm
              rcases List.mem_append.mp htm with hmem | hmem
              · rcases List.mem_append.mp hmem with hmem2 | hmem2
                · exact hw t hmem2
                · rw [List.mem_singleton.mp hmem2]
                  simp [Segment.wfb, Segment.received, Buf.split_all]
              · rw [List.mem_singleton.mp hmem]
                simp [Segment.wfb, Segment.missing, ← hhd]
            · exact put_wfb _ _
          · simp at hsplit
    · split at h
      · -- overwrite at the start of a non-empty tail: state unchanged
        simp only [PutOutcome.state, Option.some.injEq] at h
        subst h
        exact ⟨hc, hw, ht⟩
      · -- contiguous append
        simp only [PutOutcome.state, Option.some.injEq] at h
        subst h
        exact ⟨hc, hw, put_wfb _ _⟩

theorem strongInv_with_capacity (c : Nat) : StrongInv (BytesQuilt.with_capacity c) := by
  refine ⟨rfl, ?_, ?_⟩
  · intro s hs
    exact absurd hs (List.not_mem_nil s)
  · simp [Buf.wfb, BytesQuilt.with_capacity]

theorem reachable_strongInv {q : BytesQuilt} (h : ReachableGood q) : StrongInv q := by
  induction h with
  | init c => exact strongInv_with_capacity c
  | step_ok hr hg hput ih =>
    exact put_at_preserves_inv ih hg (by rw [hput]; rfl)
  | step_err hr hg hput ih =>
    exact put_at_preserves_inv ih hg (by rw [hput]; rfl)

theorem contiguousb_of_coversb {lo hi : Nat} {segs : List Segment}
    (h : coversb lo segs hi = true) : contiguousb segs = true := by
  induction segs generalizing lo with
  | nil => rfl
  | cons x rest ih =>
    obtain ⟨hx, h2⟩ := (coversb_cons_iff lo hi x rest).mp h
    cases rest with
    | nil => rfl
    | cons y ys =>
      obtain ⟨hy, -⟩ := (coversb_cons_iff _ hi y ys).mp h2
      have hcy := ih h2
      simp only [contiguousb, Bool.and_eq_true, decide_eq_true_eq]
      exact ⟨by unfold Segment.seg_end; omega, hcy⟩

theorem ledger_invariant_of_coversb {hi : Nat} {segs : List Segment}
    (h : coversb 0 segs hi = true) : ledger_invariant segs = true := by
  unfold ledger_invariant
  rw [Bool.and_eq_true]
  constructor
  · cases segs with
    | nil => rfl
    | cons x rest =>
      obtain ⟨hx, -⟩ := (coversb_cons_iff 0 hi x rest).mp h
      simpa using hx
  · exact contiguousb_of_coversb h

/-! ## Claim C7: the ledger invariant -/

/-- C7 (amended): for every quilt reachable from a freshly constructed
quilt by `put_at` calls (keeping the states of failed calls), *provided no
call writes strictly inside a `Received` segment's reserved range*, the
spec's ledger invariant holds: consecutive ledger entries are contiguous
(`offset + capacity` of one equals the `offset` of the next) and a non-empty
ledger's first entry has offset 0.  The restriction is necessary: a `put_at`
whose offset falls strictly inside a `Received` entry breaks the invariant,
see the counterexample. -/
theorem c7_ledger_invariant_reachable (q : BytesQuilt) (h : ReachableGood q) :
    ledger_invariant q.segments = true :=
  ledger_invariant_of_coversb (reachable_strongInv h).1

/-- C7 (counterexample): three successive `put_at` calls on a fresh quilt
of capacity 40 — a write at 10 opening the gap `[0,10)`, a partial fill at 0
splitting it into received `[0,5)` and gap `[5,10)`, then a write at offset 2,
strictly inside the received entry — produce a ledger whose entries are out
of order and non-contiguous (`[0,2), [2,7), [7,7), [5,10)`), falsifying the
claimed invariant for arbitrary `put_at` sequences. -/
theorem c7_counterexample :
    BytesQuilt.put_at (BytesQuilt.with_capacity 40) 10 [1, 1, 1, 1, 1] =
      .ok (some ⟨0, 10⟩) ⟨10, [⟨.missing, 0, ⟨[], 10⟩⟩], ⟨[1, 1, 1, 1, 1], 30⟩⟩ ∧
    BytesQuilt.put_at ⟨10, [⟨.missing, 0, ⟨[], 10⟩⟩], ⟨[1, 1, 1, 1, 1], 30⟩⟩ 0 [2, 2, 2, 2, 2] =
      .ok none ⟨10, [⟨.received, 0, ⟨[2, 2, 2, 2, 2], 5⟩⟩, ⟨.missing, 5, ⟨[], 5⟩⟩],
        ⟨[1, 1, 1, 1, 1], 30⟩⟩ ∧
    BytesQuilt.put_at ⟨10, [⟨.received, 0, ⟨[2, 2, 2, 2, 2], 5⟩⟩, ⟨.missing, 5, ⟨[], 5⟩⟩],
        ⟨[1, 1, 1, 1, 1], 30⟩⟩ 2 [3, 3] =
      .ok none ⟨10, [⟨.received, 0, ⟨[2, 2], 2⟩⟩, ⟨.received, 2, ⟨[2, 2, 2, 3, 3], 5⟩⟩,
        ⟨.missing, 7, ⟨[], 0⟩⟩, ⟨.missing, 5, ⟨[], 5⟩⟩], ⟨[1, 1, 1, 1, 1], 30⟩⟩ ∧
    ledger_invariant [⟨.received, 0, ⟨[2, 2], 2⟩⟩, ⟨.received, 2, ⟨[2, 2, 2, 3, 3], 5⟩⟩,
      ⟨.missing, 7, ⟨[], 0⟩⟩, ⟨.missing, 5, ⟨[], 5⟩⟩] = false := by
  exact ⟨by decide, by decide, by decide, by decide⟩

/-- Witness for C7: a concrete reachable state (one gap-opening write on a
fresh quilt) on which the invariant evaluates to `true`. -/
theorem c7_witness :
    ReachableGood ⟨5, [⟨.missing, 0, ⟨[], 5⟩⟩], ⟨[5, 4, 3, 2, 1], 15⟩⟩ ∧
    ledger_invariant ([⟨.missing, 0, ⟨[], 5⟩⟩] : List Segment) = true := by
  have hput : BytesQuilt.put_at (BytesQuilt.with_capacity 20) 5 [5, 4, 3, 2, 1] =
      .ok (some ⟨0, 5⟩) ⟨5, [⟨.missing, 0, ⟨[], 5⟩⟩], ⟨[5, 4, 3, 2, 1], 15⟩⟩ := by decide
  have hr : ReachableGood ⟨5, [⟨.missing, 0, ⟨[], 5⟩⟩], ⟨[5, 4, 3, 2, 1], 15⟩⟩ :=
    ReachableGood.step_ok (ReachableGood.init 20)
      (fun s hs => absurd hs (List.not_mem_nil s)) hput
  exact ⟨hr, c7_ledger_invariant_reachable _ hr⟩

/-! ## Claim C5: panic on valid input -/

/-- C5 (code bug): `put_at` panics on valid input.  On `BytesQuilt::new()`
(tail capacity 0), writing five bytes at offset 5 reaches
`self.buffer_tail.split_off(5)` on a buffer of capacity 0, failing the
`split_off` assertion `at <= capacity`; likewise any gap-opening write beyond
the remaining tail capacity (offset 30 on `with_capacity(20)`).  The initial
capacity is therefore a correctness constraint, contradicting the documented
behaviour (capacity is a hint only; no operation panics on valid input); the
`NotEnoughSpace` error, documented as "attempted to write past the end of the
current buffer", is never returned on this path. -/
theorem c5_put_at_panics :
    BytesQuilt.put_at BytesQuilt.new 5 [1, 2, 3, 4, 5] = .panic ∧
    BytesQuilt.put_at (BytesQuilt.with_capacity 20) 30 [1] = .panic :=
  ⟨by decide, by decide⟩

/-! ## Claim C8: frame tiling -/

/-- C8 (confirmed): for every `MissingSegment` with offset `O` and length
`L` and every positive `frame_size` `F`, `offsets_for` yields exactly the
strictly ascending offsets `O + k * F` for `0 ≤ k < L / F` (integer division
truncating), and every yielded frame fits inside the gap
(`x + F ≤ O + L`), so no offset covers a final partial frame. -/
theorem c8_offsets_for_spec (s : MissingSegment) (F : Nat) (hF : 0 < F) :
    (s.offsets_for F).length = s.length / F ∧
    (∀ x, x ∈ s.offsets_for F ↔ ∃ k, k < s.length / F ∧ x = s.offset + k * F) ∧
    (s.offsets_for F).Pairwise (· < ·) ∧
    (∀ x ∈ s.offsets_for F, x + F ≤ s.offset + s.length) := by
  unfold MissingSegment.offsets_for
  refine ⟨by simp, ?_, ?_, ?_⟩
  · intro x
    simp only [List.mem_map, List.mem_range]
    constructor
    · rintro ⟨k, hk, rfl⟩
      exact ⟨k, hk, by omega⟩
    · rintro ⟨k, hk, rfl⟩
      exact ⟨k, hk, by omega⟩
  · refine List.Pairwise.map _ ?_ (List.pairwise_lt_range _)
    intro a b hab
    have := (Nat.mul_lt_mul_right hF).mpr hab
    omega
  · intro x hx
    simp only [List.mem_map, List.mem_range] at hx
    obtain ⟨k, hk, rfl⟩ := hx
    have h2 : (k + 1) * F ≤ (s.length / F) * F := Nat.mul_le_mul_right F hk
    have h3 : (s.length / F) * F ≤ s.length := Nat.div_mul_le_self _ _
    have h4 : (k + 1) * F = k * F + F := by ring
    omega

/-- Witness for C8 at the spec's boundary example: a gap of length 10 tiled
at frame size 3 yields exactly `10 / 3 = 3` offsets, namely `[0, 3, 6]`. -/
theorem c8_witness :
    0 < 3 ∧ ((⟨0, 10⟩ : MissingSegment).offsets_for 3).length = 10 / 3 ∧
    (⟨0, 10⟩ : MissingSegment).offsets_for 3 = [0, 3, 6] :=
  ⟨by decide, (c8_offsets_for_spec ⟨0, 10⟩ 3 (by decide)).1, by decide⟩

/-! ## Claim C3: gap split on partial fill -/

/-- C3 (confirmed): on a quilt whose only ledger entry is the single gap
`[0,15)` (tail starting at 15, any tail buffer, any five bytes), `put_at` at
offset 5 succeeds with `Ok(None)`; afterwards the ledger is the gap `[0,5)`,
the received span `[5,10)` holding the bytes, and the gap `[10,15)`, so
`missing_segments` yields exactly `{offset 0, length 5}` then
`{offset 10, length 5}`, with frontier and tail untouched. -/
theorem c3_gap_split (tl : Buf) (b1 b2 b3 b4 b5 : Nat) :
    BytesQuilt.put_at ⟨15, [⟨.missing, 0, ⟨[], 15⟩⟩], tl⟩ 5 [b1, b2, b3, b4, b5] =
      .ok none ⟨15, [⟨.missing, 0, ⟨[], 5⟩⟩, ⟨.received, 5, ⟨[b1, b2, b3, b4, b5], 5⟩⟩,
        ⟨.missing, 10, ⟨[], 5⟩⟩], tl⟩ ∧
    BytesQuilt.missing_segments ⟨15, [⟨.missing, 0, ⟨[], 5⟩⟩,
        ⟨.received, 5, ⟨[b1, b2, b3, b4, b5], 5⟩⟩, ⟨.missing, 10, ⟨[], 5⟩⟩], tl⟩ =
      [⟨0, 5⟩, ⟨10, 5⟩] :=
  ⟨rfl, rfl⟩

/-! ## Claims C10 and C9: the contiguous-append range -/

/-- Shared helper: in the contiguous-append range (`offset` in
`(frontier, frontier + tail.length]`, or `offset = frontier` with an empty
tail), `put_at` just appends to the tail and returns `Ok(None)`. -/
theorem put_at_append_eq (q : BytesQuilt) (offset : Nat) (src : List Nat)
    (h : (q.tail_offset < offset ∧ offset ≤ q.tail_offset + q.buffer_tail.len) ∨
      (offset = q.tail_offset ∧ q.buffer_tail.data = [])) :
    q.put_at offset src = .ok none { q with buffer_tail := q.buffer_tail.put src } := by
  unfold BytesQuilt.put_at
  rcases h with ⟨h1, h2⟩ | ⟨h1, h2⟩
  · rw [if_neg (by omega), if_neg (by omega), if_neg (by rintro ⟨e, -⟩; omega)]
  · have hlen : q.buffer_tail.len = 0 := by simp [Buf.len, h2]
    rw [if_neg (by omega), if_neg (by omega),
      if_neg (by rintro ⟨-, hne⟩; exact hne (by simp [h2]))]

/-- C10 (confirmed): for every write whose offset lies in
`(frontier, frontier + tail.length]`, and for every write at
`offset = frontier` while the tail is empty, `put_at` appends the bytes at
the current end of the tail and returns `Ok(None)`; the ledger and the
frontier are unchanged, and the bytes land at the end of the tail no matter
where in that range the offset falls — the append point is not verified. -/
theorem c10_contiguous_append (q : BytesQuilt) (offset : Nat) (src : List Nat)
    (h : (q.tail_offset < offset ∧ offset ≤ q.tail_offset + q.buffer_tail.len) ∨
      (offset = q.tail_offset ∧ q.buffer_tail.data = [])) :
    q.put_at offset src = .ok none { q with buffer_tail := q.buffer_tail.put src } ∧
    (q.buffer_tail.put src).data = q.buffer_tail.data ++ src :=
  ⟨put_at_append_eq q offset src h, rfl⟩

/-- Witness for C10: a write at offset 3 on a quilt with frontier 2 and a
one-byte tail (so the true append point is 3) appends at the end. -/
theorem c10_witness :
    BytesQuilt.put_at ⟨2, [], ⟨[5], 10⟩⟩ 3 [7] =
      .ok none { tail_offset := 2, segments := [], buffer_tail := Buf.put ⟨[5], 10⟩ [7] } ∧
    (Buf.put ⟨[5], 10⟩ [7]).data = [5] ++ [7] :=
  c10_contiguous_append ⟨2, [], ⟨[5], 10⟩⟩ 3 [7] (Or.inl ⟨by decide, by decide⟩)

/-- C9 (amended): a zero-length write is a no-op returning `Ok(None)`
exactly on the contiguous-append range: offset in
`(frontier, frontier + tail.length]`, or at the frontier with an empty tail.
Outside that range an empty write behaves like any non-empty write: it can
open and report a gap, split a `Missing` entry into a zero-length `Received`
prefix plus the original gap, or fail with `WouldOverwrite` — see the
counterexample. -/
theorem c9_empty_write_noop (q : BytesQuilt) (offset : Nat)
    (hwf : q.buffer_tail.wfb = true)
    (h : (q.tail_offset < offset ∧ offset ≤ q.tail_offset + q.buffer_tail.len) ∨
      (offset = q.tail_offset ∧ q.buffer_tail.data = [])) :
    q.put_at offset [] = .ok none q := by
  have hid : q.buffer_tail.put [] = q.buffer_tail := by
    have hle : q.buffer_tail.data.length ≤ q.buffer_tail.cap := by
      simpa [Buf.wfb] using hwf
    simp [Buf.put, Nat.max_eq_left hle]
  rw [put_at_append_eq q offset [] h, hid]

/-- C9 (counterexample): a zero-length write is not a no-op in general:
on a fresh quilt of capacity 20, `put_at 5 []` opens the gap `[0,5)` — it
returns `Ok(Some{offset 0, length 5})`, pushes a `Missing` ledger entry, and
moves the frontier from 0 to 5, all observable through `missing_segments`. -/
theorem c9_counterexample :
    BytesQuilt.put_at (BytesQuilt.with_capacity 20) 5 [] =
      .ok (some ⟨0, 5⟩) ⟨5, [⟨.missing, 0, ⟨[], 5⟩⟩], ⟨[], 15⟩⟩ ∧
    (BytesQuilt.with_capacity 20).tail_offset = 0 ∧
    BytesQuilt.missing_segments (BytesQuilt.with_capacity 20) = [] ∧
    BytesQuilt.missing_segments ⟨5, [⟨.missing, 0, ⟨[], 5⟩⟩], ⟨[], 15⟩⟩ = [⟨0, 5⟩] := by
  exact ⟨by decide, by decide, by decide, by decide⟩

/-- Witness for C9: an empty write at the frontier of a fresh quilt (empty
tail) leaves the quilt unchanged. -/
theorem c9_witness :
    (BytesQuilt.with_capacity 20).buffer_tail.wfb = true ∧
    BytesQuilt.put_at (BytesQuilt.with_capacity 20) 0 [] =
      .ok none (BytesQuilt.with_capacity 20) :=
  ⟨by decide, c9_empty_write_noop (BytesQuilt.with_capacity 20) 0 (by decide)
    (Or.inr ⟨by decide, by decide⟩)⟩

/-! ## Claim C1: gap-ahead reporting -/

set_option maxHeartbeats 1000000 in
/-- C1 (amended): when a write lands `G > 0` bytes beyond the current
append point `frontier + tail.length` and the required gap fits in the tail
buffer's remaining capacity (otherwise the call panics, see C5), `put_at`
succeeds and returns `Some(MissingSegment{offset: frontier + tail.length,
length: G})` — the gap starts at the *append point*, not at the pre-call
frontier — the frontier becomes the written offset, the ledger gains the
frozen tail (when non-empty) followed by the `Missing` gap entry, and the
reported gap is appended to `missing_segments`.  Moreover (second conjunct)
a `Some` result arises in no other case, and always carries exactly the
append point and the distance to the written offset. -/
theorem c1_gap_ahead (q : BytesQuilt) (offset : Nat) (src : List Nat)
    (hwf : q.buffer_tail.wfb = true)
    (hgap : q.tail_offset + q.buffer_tail.len < offset)
    (hcap : offset ≤ q.tail_offset + q.buffer_tail.cap) :
    (∃ q', q.put_at offset src =
        .ok (some ⟨q.tail_offset + q.buffer_tail.len,
          offset - (q.tail_offset + q.buffer_tail.len)⟩) q' ∧
      q'.tail_offset = offset ∧
      q'.buffer_tail.data = src ∧
      q'.segments = q.segments ++
        (if q.buffer_tail.data.isEmpty then
          [Segment.missing q.tail_offset ⟨[], offset - q.tail_offset⟩]
        else
          [Segment.received q.tail_offset ⟨q.buffer_tail.data, q.buffer_tail.len⟩,
            Segment.missing (q.tail_offset + q.buffer_tail.len)
              ⟨[], offset - (q.tail_offset + q.buffer_tail.len)⟩]) ∧
      q'.missing_segments = q.missing_segments ++
        [⟨q.tail_offset + q.buffer_tail.len,
          offset - (q.tail_offset + q.buffer_tail.len)⟩]) ∧
    (∀ (p : BytesQuilt) (o : Nat) (s : List Nat) (ms : MissingSegment) (p' : BytesQuilt),
      p.put_at o s = .ok (some ms) p' →
      p.tail_offset + p.buffer_tail.len < o ∧
      ms = ⟨p.tail_offset + p.buffer_tail.len, o - (p.tail_offset + p.buffer_tail.len)⟩ ∧
      p'.tail_offset = o) := by
  have hlecap : q.buffer_tail.data.length ≤ q.buffer_tail.cap := by
    simpa [Buf.wfb] using hwf
  constructor
  · unfold BytesQuilt.put_at
    rw [if_neg (by omega), if_pos hgap]
    by_cases hemp : q.buffer_tail.data.isEmpty
    · have hdata : q.buffer_tail.data = [] := List.isEmpty_iff.mp hemp
      have hlen0 : q.buffer_tail.len = 0 := by simp [Buf.len, hdata]
      rw [if_pos hemp, if_pos hemp]
      have hsplit : q.buffer_tail.split_off (offset - q.tail_offset) =
          some (⟨[], offset - q.tail_offset⟩,
            ⟨[], q.buffer_tail.cap - (offset - q.tail_offset)⟩) := by
        unfold Buf.split_off
        rw [if_pos (by omega)]
        simp [hdata]
      simp only [hlen0, Nat.add_zero, hsplit, Segment.missing_segment, Segment.missing]
      refine ⟨_, rfl, rfl, by simp [Buf.put], rfl, ?_⟩
      simp [BytesQuilt.missing_segments, List.filterMap_append, Segment.missing_segment,
        Segment.missing]
    · have hempf : q.buffer_tail.data.isEmpty = false := by
        rw [Bool.eq_false_iff]
        exact hemp
      have hsplit : (Buf.mk [] (q.buffer_tail.cap - q.buffer_tail.data.length)).split_off
          (offset - (q.tail_offset + q.buffer_tail.data.length)) =
          some (⟨[], offset - (q.tail_offset + q.buffer_tail.data.length)⟩,
            ⟨[], q.buffer_tail.cap - q.buffer_tail.data.length -
              (offset - (q.tail_offset + q.buffer_tail.data.length))⟩) := by
        unfold Buf.split_off
        simp only [Buf.len] at hgap
        rw [if_pos (by simp only []; omega)]
        simp
      simp only [hempf, Bool.false_eq_true, if_false, Buf.split_all, Buf.len] at hsplit ⊢
      simp only [hsplit, Segment.missing_segment, Segment.missing]
      refine ⟨_, rfl, rfl, by simp [Buf.put], by simp [List.append_assoc], ?_⟩
      simp [BytesQuilt.missing_segments, List.filterMap_append, Segment.missing_segment,
        Segment.missing, Segment.received]
  · intro p o s ms p' hput
    unfold BytesQuilt.put_at at hput
    split at hput
    · split at hput
      · split at hput
        · simp at hput
        · simp at hput
        · simp at hput
      · split at hput
        · simp at hput
        · simp at hput
        · split at hput
          · split at hput
            · simp at hput
            · simp only [] at hput
              split at hput
              · simp at hput
              · simp at hput
              · simp at hput
          · simp at hput
    · split at hput
      · rename_i hb hb2
        split at hput
        · rename_i hemp
          have hdata : p.buffer_tail.data = [] := List.isEmpty_iff.mp hemp
          have hlen0 : p.buffer_tail.len = 0 := by simp [Buf.len, hdata]
          simp only [] at hput
          split at hput
          · simp at hput
          · rename_i hd tl hsplit
            unfold Buf.split_off at hsplit
            split at hsplit
            · simp only [Option.some.injEq, Prod.mk.injEq] at hsplit
              obtain ⟨hhd, -⟩ := hsplit
              simp only [Segment.missing_segment, Segment.missing, PutOutcome.ok.injEq,
                Option.some.injEq] at hput
              obtain ⟨hms, hp'⟩ := hput
              subst hp'
              refine ⟨hb2, ?_, rfl⟩
              rw [← hms, ← hhd]
              simp only [hlen0, Nat.add_zero]
            · simp at hsplit
        · rename_i hemp
          simp only [] at hput
          split at hput
          · simp at hput
          · rename_i hd tl hsplit
            unfold Buf.split_off at hsplit
            split at hsplit
            · simp only [Buf.split_all, Option.some.injEq, Prod.mk.injEq] at hsplit
              obtain ⟨hhd, -⟩ := hsplit
              simp only [Segment.missing_segment, Segment.missing, PutOutcome.ok.injEq,
                Option.some.injEq] at hput
              obtain ⟨hms, hp'⟩ := hput
              subst hp'
              refine ⟨hb2, ?_, rfl⟩
              rw [← hms, ← hhd]
            · simp at hsplit
      · split at hput
        · simp at hput
        · simp at hput

/-! ## Branch equations for backfills -/

theorem put_at_found_eq {q : BytesQuilt} {offset : Nat} {src : List Nat}
    (hb : q.tail_offset > offset) {i : Nat}
    (hsearch : binary_search_by_offset q.segments offset = .found i) :
    q.put_at offset src =
      (match write_offset_at_index q.segments i offset src with
       | none => .panic
       | some (.error e) => .err e q
       | some (.ok segs) => .ok none { q with segments := segs }) := by
  unfold BytesQuilt.put_at
  rw [if_pos hb, hsearch]

theorem put_at_notFound_eq {q : BytesQuilt} {offset : Nat} {src : List Nat} {i : Nat}
    {prior : Segment} (hb : q.tail_offset > offset)
    (hsearch : binary_search_by_offset q.segments offset = .notFound (i + 1))
    (hprior : q.segments[i]? = some prior) (hle : prior.offset ≤ offset)
    {kept to_write : Buf}
    (hsplit : prior.buffer.split_off (offset - prior.offset) = some (kept, to_write)) :
    q.put_at offset src =
      (match write_offset_at_index
          (insert_at (q.segments.set i { prior with buffer := kept }) (i + 1)
            (Segment.missing offset to_write)) (i + 1) offset src with
       | none => .panic
       | some (.error e) =>
         .err e { q with segments := insert_at (q.segments.set i { prior with buffer := kept }) (i + 1) (Segment.missing offset to_write) }
       | some (.ok segs') => .ok none { q with segments := segs' }) := by
  unfold BytesQuilt.put_at
  rw [if_pos hb, hsearch]
  split
  · rename_i hfound
    cases hfound
  · rename_i idx hnf2
    injection hnf2 with hidx
    subst hidx
    split
    · rename_i h0
      omega
    · rename_i hget
      rw [Nat.add_sub_cancel, hprior] at hget
      cases hget
    · rename_i seg hget
      rw [Nat.add_sub_cancel, hprior] at hget
      injection hget with hget
      subst hget
      rw [if_pos hle, hsplit]
      rfl

/-! ## Claim C4: overfill rejection -/

set_option maxHeartbeats 1000000 in
/-- C4 (amended): a backfill write longer than the reserved capacity of
the gap it targets fails with `NotEnoughSpace`.  When the write offset is
exactly the gap's start the failed call leaves the quilt unchanged; when it
falls strictly inside the gap, the failed call has *already split* the gap
into two `Missing` entries covering the same bytes before the rejection, so
the ledger is not unchanged — see the counterexample.  The hypotheses are the
structural invariant facts every reachable well-formed quilt satisfies. -/
theorem c4_overfill (q : BytesQuilt) (offset : Nat) (src : List Nat) (i : Nat) (seg : Segment)
    (hc : coversb 0 q.segments q.tail_offset = true)
    (hp : q.segments.Pairwise (fun a b => a.offset < b.offset))
    (hb : offset < q.tail_offset)
    (hs : q.segments[i]? = some seg) (hms : seg.status = .missing)
    (hdata : seg.buffer.data = []) :
    (seg.offset = offset → seg.buffer.cap < src.length →
      q.put_at offset src = .err .notEnoughSpace q) ∧
    (seg.offset < offset → offset < seg.seg_end →
      seg.buffer.cap - (offset - seg.offset) < src.length →
      q.put_at offset src = .err .notEnoughSpace
        { q with segments := insert_at (q.segments.set i { seg with buffer := ⟨[], offset - seg.offset⟩ }) (i + 1) (Segment.missing offset ⟨[], seg.buffer.cap - (offset - seg.offset)⟩) }) := by
  have hilen : i < q.segments.length := (List.getElem?_eq_some.mp hs).1
  have hprev : ∀ j t, j < i → q.segments[j]? = some t → t.offset < seg.offset := by
    intro j t hj ht
    obtain ⟨hjlen, ht'⟩ := List.getElem?_eq_some.mp ht
    obtain ⟨hilen2, hs'⟩ := List.getElem?_eq_some.mp hs
    have := List.pairwise_iff_getElem.mp hp j i hjlen hilen2 hj
    rw [ht', hs'] at this
    exact this
  constructor
  · intro heq hlt
    have hsearch := search_found_of hs heq (fun j t hj ht => by
      have := hprev j t hj ht
      omega)
    rw [put_at_found_eq hb hsearch, write_missing hs hms hdata, if_pos hlt]
  · intro h1 h2 h3
    have hsearch : binary_search_by_offset q.segments offset = .notFound (i + 1) := by
      refine search_notFound_of (by omega) ?_ ?_
      · intro j t hj ht
        rcases Nat.lt_succ_iff_lt_or_eq.mp hj with hj' | hj'
        · have := hprev j t hj' ht
          omega
        · subst hj'
          rw [hs] at ht
          injection ht with ht
          subst ht
          exact h1
      · intro t ht
        have := coversb_get_succ hc hs ht
        unfold Segment.seg_end at h2
        rw [this]
        unfold Segment.seg_end
        omega
    have hsplit : seg.buffer.split_off (offset - seg.offset) =
        some (⟨[], offset - seg.offset⟩, ⟨[], seg.buffer.cap - (offset - seg.offset)⟩) := by
      unfold Buf.split_off
      unfold Segment.seg_end at h2
      rw [if_pos (by omega)]
      simp [hdata]
    rw [put_at_notFound_eq hb hsearch hs (by omega) hsplit]
    have hn1 : (insert_at (q.segments.set i { seg with buffer := ⟨[], offset - seg.offset⟩ })
        (i + 1) (Segment.missing offset ⟨[], seg.buffer.cap - (offset - seg.offset)⟩))[i + 1]? =
        some (Segment.missing offset ⟨[], seg.buffer.cap - (offset - seg.offset)⟩) := by
      refine insert_at_get_self _ _ _ ?_
      rw [List.length_set]
      omega
    rw [write_missing hn1 rfl rfl, if_pos (by simpa [Segment.missing] using h3)]

/-- C4 (counterexample): the library's own overfill scenario — open gap
`[0,4)` by writing two bytes at 4, then try to fill it at offset 2 with four
bytes.  The call fails with `NotEnoughSpace` as claimed, but the ledger is
*changed* by the failed call: the single gap `{0,4}` has been split into
`{0,2}` and `{2,2}`, observably via `missing_segments`. -/
theorem c4_counterexample :
    BytesQuilt.put_at (BytesQuilt.with_capacity 20) 4 [2, 1] =
      .ok (some ⟨0, 4⟩) ⟨4, [⟨.missing, 0, ⟨[], 4⟩⟩], ⟨[2, 1], 16⟩⟩ ∧
    BytesQuilt.put_at ⟨4, [⟨.missing, 0, ⟨[], 4⟩⟩], ⟨[2, 1], 16⟩⟩ 2 [4, 3, 7, 8] =
      .err .notEnoughSpace ⟨4, [⟨.missing, 0, ⟨[], 2⟩⟩, ⟨.missing, 2, ⟨[], 2⟩⟩], ⟨[2, 1], 16⟩⟩ ∧
    ([⟨.missing, 0, ⟨[], 2⟩⟩, ⟨.missing, 2, ⟨[], 2⟩⟩] : List Segment) ≠
      [⟨.missing, 0, ⟨[], 4⟩⟩] ∧
    BytesQuilt.missing_segments ⟨4, [⟨.missing, 0, ⟨[], 2⟩⟩, ⟨.missing, 2, ⟨[], 2⟩⟩],
        ⟨[2, 1], 16⟩⟩ ≠
      BytesQuilt.missing_segments ⟨4, [⟨.missing, 0, ⟨[], 4⟩⟩], ⟨[2, 1], 16⟩⟩ := by
  exact ⟨by decide, by decide, by decide, by decide⟩

/-- Witness for C4: the strictly-inside overfill on a concrete quilt, via the
amended theorem. -/
theorem c4_witness :
    BytesQuilt.put_at ⟨4, [⟨.missing, 0, ⟨[], 4⟩⟩], ⟨[2, 1], 16⟩⟩ 2 [4, 3, 7, 8] =
      .err .notEnoughSpace ⟨4, [⟨.missing, 0, ⟨[], 2⟩⟩, ⟨.missing, 2, ⟨[], 2⟩⟩],
        ⟨[2, 1], 16⟩⟩ := by
  have h := (c4_overfill ⟨4, [⟨.missing, 0, ⟨[], 4⟩⟩], ⟨[2, 1], 16⟩⟩ 2 [4, 3, 7, 8] 0
    ⟨.missing, 0, ⟨[], 4⟩⟩ (by decide) (by decide) (by decide) (by decide) rfl rfl).2
  exact h (by decide) (by decide) (by decide)

/-! ## Claim C6: overwrite rejection -/

theorem write_error_wouldOverwrite {segs : List Segment} {index offset : Nat} {src : List Nat}
    (h : write_offset_at_index segs index offset src = some (.error .wouldOverwrite)) :
    ∃ s, segs[index]? = some s ∧ s.status = .received := by
  unfold write_offset_at_index at h
  rcases hseg : segs[index]? with _ | s
  · rw [hseg] at h
    cases h
  · rw [hseg] at h
    simp only [] at h
    by_cases hst : s.status = .received
    · exact ⟨s, rfl, hst⟩
    · rw [if_neg hst] at h
      by_cases h1 : s.buffer.cap < src.length
      · rw [if_pos h1] at h
        simp at h
      · rw [if_neg h1] at h
        by_cases h2 : s.buffer.cap = src.length
        · rw [if_pos h2] at h
          simp at h
        · rw [if_neg h2] at h
          split at h
          · simp at h
          · simp at h

set_option maxHeartbeats 1000000 in
/-- C6 (amended): on a quilt whose ledger offsets are strictly increasing
and lie below the frontier (facts the structural invariant guarantees),
`put_at` fails with `WouldOverwrite` *iff* the write offset exactly equals
the offset of a `Received` ledger entry, or equals the frontier while the
tail is non-empty.  In particular a write that starts strictly *inside* a
`Received` entry's reserved range is not rejected — the original claim fails
there, see the counterexample. -/
theorem c6_would_overwrite_iff (q : BytesQuilt) (offset : Nat) (src : List Nat)
    (hp : q.segments.Pairwise (fun a b => a.offset < b.offset))
    (hlt : ∀ s ∈ q.segments, s.offset < q.tail_offset) :
    (∃ q', q.put_at offset src = .err .wouldOverwrite q') ↔
      ((∃ s ∈ q.segments, s.status = .received ∧ s.offset = offset) ∨
        (offset = q.tail_offset ∧ q.buffer_tail.data ≠ [])) := by
  constructor
  · rintro ⟨q', hput⟩
    unfold BytesQuilt.put_at at hput
    split at hput
    · rename_i hb
      split at hput
      · rename_i sr i hsearch
        split at hput
        · simp at hput
        · rename_i e hwr
          simp only [PutOutcome.err.injEq] at hput
          obtain ⟨he, -⟩ := hput
          subst he
          obtain ⟨s, hs, hoff⟩ := search_found_spec hsearch
          obtain ⟨s2, hs2, hrec⟩ := write_error_wouldOverwrite hwr
          rw [hs] at hs2
          injection hs2 with hs2
          subst hs2
          exact Or.inl ⟨s, seg_mem_of_getElem? hs, hrec, hoff⟩
        · simp at hput
      · rename_i sr i hnf
        split at hput
        · simp at hput
        · simp at hput
        · rename_i n prior hget
          split at hput
          · rename_i hle
            split at hput
            · simp at hput
            · rename_i kept to_write hsplit
              simp only [] at hput
              split at hput
              · simp at hput
              · rename_i e hwr
                simp only [PutOutcome.err.injEq] at hput
                obtain ⟨he, -⟩ := hput
                subst he
                obtain ⟨s2, hs2, hrec⟩ := write_error_wouldOverwrite hwr
                rw [insert_at_get_self _ _ _ (by
                  rw [List.length_set]
                  rw [Nat.succ_sub_one] at hget
                  exact (List.getElem?_eq_some.mp hget).1)] at hs2
                injection hs2 with hs2
                rw [← hs2] at hrec
                simp [Segment.missing] at hrec
              · simp at hput
          · simp at hput
    · rename_i hb
      split at hput
      · rename_i hb2
        split at hput
        · simp only [] at hput
          split at hput
          · simp at hput
          · simp at hput
        · simp only [] at hput
          split at hput
          · simp at hput
          · simp at hput
      · split at hput
        · rename_i hcond
          obtain ⟨he, hne⟩ := hcond
          refine Or.inr ⟨he.symm, ?_⟩
          intro hd
          exact hne (by simp [hd])
        · simp at hput
  · rintro (⟨s, hmem, hrec, hoff⟩ | ⟨he, hne⟩)
    · obtain ⟨i, hilen, hieq⟩ := List.mem_iff_getElem.mp hmem
      have hs : q.segments[i]? = some s := by
        rw [List.getElem?_eq_getElem hilen, hieq]
      have hb : q.tail_offset > offset := by
        have := hlt s hmem
        omega
      have hsearch := search_found_of hs hoff (fun j t hj ht => by
        obtain ⟨hjlen, ht'⟩ := List.getElem?_eq_some.mp ht
        have := List.pairwise_iff_getElem.mp hp j i hjlen hilen hj
        rw [ht', hieq] at this
        omega)
      refine ⟨q, ?_⟩
      rw [put_at_found_eq hb hsearch, write_received hs hrec]
    · refine ⟨q, ?_⟩
      unfold BytesQuilt.put_at
      have hlen : 0 < q.buffer_tail.data.length := List.length_pos.mpr hne
      rw [if_neg (by omega), if_neg (by simp only [Buf.len]; omega),
        if_pos ⟨he.symm, by simpa [List.isEmpty_iff] using hne⟩]

/-- C6 (counterexample): a write whose range overlaps already-received
bytes is *not* always rejected.  Open the gap `[0,5)` by writing at 5, fill
it exactly at 0 (entry `[0,5)` is now `Received`), then write two bytes at
offset 2 — strictly inside the received range.  The call returns `Ok(None)`
instead of `Err(WouldOverwrite)`, splitting the received entry and
overwriting its tail portion in the process. -/
theorem c6_counterexample :
    BytesQuilt.put_at (BytesQuilt.with_capacity 20) 5 [5, 4, 3, 2, 1] =
      .ok (some ⟨0, 5⟩) ⟨5, [⟨.missing, 0, ⟨[], 5⟩⟩], ⟨[5, 4, 3, 2, 1], 15⟩⟩ ∧
    BytesQuilt.put_at ⟨5, [⟨.missing, 0, ⟨[], 5⟩⟩], ⟨[5, 4, 3, 2, 1], 15⟩⟩ 0
        [10, 9, 8, 7, 6] =
      .ok none ⟨5, [⟨.received, 0, ⟨[10, 9, 8, 7, 6], 5⟩⟩], ⟨[5, 4, 3, 2, 1], 15⟩⟩ ∧
    BytesQuilt.put_at ⟨5, [⟨.received, 0, ⟨[10, 9, 8, 7, 6], 5⟩⟩], ⟨[5, 4, 3, 2, 1], 15⟩⟩ 2
        [9, 9] =
      .ok none ⟨5, [⟨.received, 0, ⟨[10, 9], 2⟩⟩, ⟨.received, 2, ⟨[8, 7, 6, 9, 9], 5⟩⟩,
        ⟨.missing, 7, ⟨[], 0⟩⟩], ⟨[5, 4, 3, 2, 1], 15⟩⟩ ∧
    ((⟨.received, 0, ⟨[10, 9, 8, 7, 6], 5⟩⟩ : Segment).offset < 2 ∧
      2 < (⟨.received, 0, ⟨[10, 9, 8, 7, 6], 5⟩⟩ : Segment).seg_end) := by
  exact ⟨by decide, by decide, by decide, by decide⟩

/-- Witness for C6: on a quilt with a received entry at offset 0 below
frontier 4, a write at offset 0 is rejected with `WouldOverwrite`, and the
characterisation applies. -/
theorem c6_witness :
    (∃ q', BytesQuilt.put_at ⟨4, [⟨.received, 0, ⟨[8, 7], 2⟩⟩, ⟨.received, 2, ⟨[6, 5], 2⟩⟩],
        ⟨[2, 1], 16⟩⟩ 0 [9] = .err .wouldOverwrite q') ↔
      ((∃ s ∈ ([⟨.received, 0, ⟨[8, 7], 2⟩⟩, ⟨.received, 2, ⟨[6, 5], 2⟩⟩] : List Segment),
          s.status = .received ∧ s.offset = 0) ∨
        (0 = 4 ∧ ([2, 1] : List Nat) ≠ [])) :=
  c6_would_overwrite_iff ⟨4, [⟨.received, 0, ⟨[8, 7], 2⟩⟩, ⟨.received, 2, ⟨[6, 5], 2⟩⟩],
    ⟨[2, 1], 16⟩⟩ 0 [9] (by decide) (by decide)

/-- C1 (counterexample): with a non-empty tail the reported gap does not
start at the pre-call frontier.  After appending `[1,2]` at offset 0
(frontier 0, tail length 2), writing at offset 5 exceeds the append point by
`G = 3`; the call returns `Some{offset 2, length 3}` — the offset is the old
append point `frontier + tail.length = 2`, not the old frontier 0 the claim
names. -/
theorem c1_counterexample :
    BytesQuilt.put_at (BytesQuilt.with_capacity 20) 0 [1, 2] =
      .ok none ⟨0, [], ⟨[1, 2], 20⟩⟩ ∧
    BytesQuilt.put_at ⟨0, [], ⟨[1, 2], 20⟩⟩ 5 [9] =
      .ok (some ⟨2, 3⟩) ⟨5, [⟨.received, 0, ⟨[1, 2], 2⟩⟩, ⟨.missing, 2, ⟨[], 3⟩⟩],
        ⟨[9], 15⟩⟩ ∧
    (⟨0, [], ⟨[1, 2], 20⟩⟩ : BytesQuilt).tail_offset = 0 ∧
    (⟨2, 3⟩ : MissingSegment) ≠ ⟨0, 3⟩ := by
  exact ⟨by decide, by decide, by decide, by decide⟩

/-- Witness for C1: the same gap-opening write, obtained from the amended
theorem. -/
theorem c1_witness :
    (0 + (Buf.mk [1, 2] 20).len < 5 ∧ 5 ≤ 0 + (Buf.mk [1, 2] 20).cap) ∧
    ∃ q', BytesQuilt.put_at ⟨0, [], ⟨[1, 2], 20⟩⟩ 5 [9] = .ok (some ⟨2, 3⟩) q' := by
  refine ⟨⟨by decide, by decide⟩, ?_⟩
  obtain ⟨q', hq, -⟩ := (c1_gap_ahead ⟨0, [], ⟨[1, 2], 20⟩⟩ 5 [9]
    (by decide) (by decide) (by decide)).1
  exact ⟨q', hq⟩

/-! ## Claim C2: finalization -/

theorem coversb_mem_bounds {lo hi : Nat} {segs : List Segment}
    (h : coversb lo segs hi = true) {s : Segment} (hs : s ∈ segs) :
    lo ≤ s.offset ∧ s.seg_end ≤ hi := by
  obtain ⟨i, hilen, hieq⟩ := List.mem_iff_getElem.mp hs
  exact coversb_get_bounds h (by rw [List.getElem?_eq_getElem hilen, hieq])

set_option maxHeartbeats 1000000 in
/-- Positional description of the flattened ledger: an all-received ledger
covering `[lo, hi)` flattens to `hi - lo` bytes, and each segment's bytes sit
at its offset. -/
theorem flatten_len_pos {segs : List Segment} {lo hi : Nat}
    (hc : coversb lo segs hi = true)
    (hr : ∀ s ∈ segs, s.status = .received ∧ s.wfb = true) :
    ((segs.map (fun s => s.buffer.data)).flatten).length = hi - lo ∧
    ∀ s ∈ segs, (((segs.map (fun s => s.buffer.data)).flatten).drop (s.offset - lo)).take
      s.buffer.cap = s.buffer.data := by
  induction segs generalizing lo with
  | nil =>
    rw [coversb_nil_iff] at hc
    subst hc
    refine ⟨by simp, ?_⟩
    intro s hs
    simp at hs
  | cons x rest ih =>
    obtain ⟨hx, h2⟩ := (coversb_cons_iff lo hi x rest).mp hc
    obtain ⟨hxr, hxw⟩ := hr x (List.mem_cons_self x rest)
    have hxlen : x.buffer.data.length = x.buffer.cap := received_data_full hxw hxr
    obtain ⟨ihlen, ihpos⟩ := ih h2 (fun s hs => hr s (List.mem_cons_of_mem x hs))
    have hle := coversb_le h2
    constructor
    · simp only [List.map_cons, List.flatten_cons, List.length_append, ihlen, hxlen]
      omega
    · intro s hs
      rcases List.mem_cons.mp hs with rfl | hs2
      · rw [hx, Nat.sub_self]
        simp only [List.map_cons, List.flatten_cons, List.drop_zero]
        rw [← hxlen, List.take_left]
      · have hge := (coversb_mem_bounds h2 hs2).1
        have e : s.offset - lo = x.buffer.data.length + (s.offset - (lo + x.buffer.cap)) := by
          omega
        simp only [List.map_cons, List.flatten_cons]
        rw [e, List.drop_append]
        exact ihpos s hs2

set_option maxHeartbeats 1000000 in
/-- C2 (amended): under the precondition that no ledger entry is
`Missing` (every entry is `Received` and full) and the ledger tiles
`[0, frontier)` in order, `into_inner` returns the concatenation of the
ledger buffers in ascending (= ledger) offset order followed by the tail:
the result has length `frontier + tail.length`, each segment's bytes appear
at its own offset, and the bytes from the frontier on are exactly the tail.
The spec's concrete example is corrected: inserting `[2,1]` at 4, `[6,5]` at
2 and `[8,7]` at 0 on a fresh capacity-20 quilt finalizes to
`[8,7,6,5,2,1]`, not `[8,7,6,5,4,3,2,1]` (which would additionally require
inserting `[4,3]` at offset 4 — the example covers only 6 bytes). -/
theorem c2_into_inner (q : BytesQuilt)
    (hc : coversb 0 q.segments q.tail_offset = true)
    (hr : ∀ s ∈ q.segments, s.status = .received ∧ s.wfb = true) :
    (q.into_inner.length = q.tail_offset + q.buffer_tail.len ∧
    (∀ s ∈ q.segments, (q.into_inner.drop s.offset).take s.buffer.cap = s.buffer.data) ∧
    q.into_inner.drop q.tail_offset = q.buffer_tail.data) ∧
    (((BytesQuilt.put_at (BytesQuilt.with_capacity 20) 4 [2, 1]).state.bind
      (fun q1 => (q1.put_at 2 [6, 5]).state)).bind
        (fun q2 => (q2.put_at 0 [8, 7]).state) |>.map BytesQuilt.into_inner) =
      some [8, 7, 6, 5, 2, 1] := by
  obtain ⟨hlen, hpos⟩ := flatten_len_pos hc hr
  simp only [Nat.sub_zero] at hlen hpos
  refine ⟨⟨?_, ?_, ?_⟩, by decide⟩
  · unfold BytesQuilt.into_inner
    simp only [List.length_append, hlen, Buf.len]
  · intro s hs
    obtain ⟨hlo, hhi⟩ := coversb_mem_bounds hc hs
    unfold Segment.seg_end at hhi
    unfold BytesQuilt.into_inner
    rw [List.drop_append_of_le_length (by omega), List.take_append_of_le_length (by
      rw [List.length_drop, hlen]
      omega)]
    exact hpos s hs
  · unfold BytesQuilt.into_inner
    rw [← hlen, List.drop_left]

/-- C2 (counterexample): the spec's worked example is wrong for the three
listed inserts.  `[2,1]` at 4, `[6,5]` at 2, `[8,7]` at 0 on a fresh
capacity-20 quilt cover only bytes `[0,6)`; no entry is `Missing`
(`missing_segments` is empty, so the claim's precondition holds), and
`into_inner` returns `[8,7,6,5,2,1]`, not the claimed `[8,7,6,5,4,3,2,1]`. -/
theorem c2_counterexample :
    (((BytesQuilt.put_at (BytesQuilt.with_capacity 20) 4 [2, 1]).state.bind
      (fun q1 => (q1.put_at 2 [6, 5]).state)).bind
        (fun q2 => (q2.put_at 0 [8, 7]).state) |>.map BytesQuilt.into_inner) =
      some [8, 7, 6, 5, 2, 1] ∧
    (((BytesQuilt.put_at (BytesQuilt.with_capacity 20) 4 [2, 1]).state.bind
      (fun q1 => (q1.put_at 2 [6, 5]).state)).bind
        (fun q2 => (q2.put_at 0 [8, 7]).state) |>.map BytesQuilt.missing_segments) =
      some [] ∧
    ([8, 7, 6, 5, 2, 1] : List Nat) ≠ [8, 7, 6, 5, 4, 3, 2, 1] := by
  exact ⟨by decide, by decide, by decide⟩

/-- Witness for C2: the quilt produced by the corrected example satisfies the
hypotheses, and its reassembled length is frontier + tail length. -/
theorem c2_witness :
    coversb 0 [⟨.received, 0, ⟨[8, 7], 2⟩⟩, ⟨.received, 2, ⟨[6, 5], 2⟩⟩] 4 = true ∧
    (⟨4, [⟨.received, 0, ⟨[8, 7], 2⟩⟩, ⟨.received, 2, ⟨[6, 5], 2⟩⟩],
      ⟨[2, 1], 16⟩⟩ : BytesQuilt).into_inner.length = 4 + (Buf.mk [2, 1] 16).len :=
  ⟨by decide, ((c2_into_inner ⟨4, [⟨.received, 0, ⟨[8, 7], 2⟩⟩, ⟨.received, 2, ⟨[6, 5], 2⟩⟩],
    ⟨[2, 1], 16⟩⟩ (by decide) (by decide)).1).1⟩
